import Mathlib

/-!
Verification of the bounded-concurrency transcript-annotation pipeline
implemented in `vapi_analyze.py`.

The development shallowly embeds the pipeline:
* Python strings are `List Char`; Python dicts holding decoded JSON are
  association lists `List (Key × Json)` (insertion ordered, like `dict`).
* `json.loads` is modelled by the executable recursive-descent decoder
  `jsonDecode` over a `Json` tree (objects / arrays / strings / numbers /
  booleans / null).
* `analyze_single_transcript` (lines 38-111) is `analyzeSingle`; its
  markdown-fence cleanup (lines 89-96) is `cleanFences` and the JSON
  parse step with its error payloads (lines 98-109) is `parseLlm`.
* `analyze_all_calls` (lines 114-141) is modelled twice, consistently:
  `gatherAll` is the order-preserving denotation of
  `asyncio.gather(*tasks)`, and the small-step scheduler
  (`SState`, `applyAct`, `runSched`) models the semaphore-bounded
  interleaving of the per-record tasks, one task per record, where a
  task acquires a slot, runs its body, and releases the slot on finish.
* The result tallies of `main` (lines 201-203) are `countSuccess`,
  `countSkipped`, `countError`; the post-load control flow of `main`
  is `mainRun`.
-/

/-! ### Characters and Python-string helpers -/

/-- Whitespace test used by the model of Python's `str.strip`. -/
def isWsC (c : Char) : Bool :=
  c = ' ' || c = '\t' || c = '\n' || c = '\r'

/-- Drop leading whitespace (model of left-trim). -/
def trimWs (cs : List Char) : List Char := cs.dropWhile isWsC

/-- Model of Python `str.strip()`: drop whitespace on both ends. -/
def stripL (cs : List Char) : List Char :=
  ((trimWs cs).reverse.dropWhile isWsC).reverse

/-- Boolean prefix test on character lists (model of `str.startswith`). -/
def startsWithL : List Char → List Char → Bool
  | [], _ => true
  | _ :: _, [] => false
  | p :: ps, c :: cs => p = c && startsWithL ps cs

/-- Boolean suffix test on character lists (model of `str.endswith`). -/
def endsWithL (pat cs : List Char) : Bool :=
  startsWithL pat.reverse cs.reverse

/-- Suffix of `cs` after the first occurrence of `pat`, if any. -/
def cutFirst (pat : List Char) : List Char → Option (List Char)
  | [] => if startsWithL pat [] then some [] else none
  | c :: r =>
    if startsWithL pat (c :: r) then some ((c :: r).drop pat.length)
    else cutFirst pat r

/-- Model of Python `s.replace(pat, "", 1)`: remove the first occurrence
of `pat` from `cs` (identity if absent). -/
def replaceFirst (pat : List Char) : List Char → List Char
  | [] => []
  | c :: r =>
    if startsWithL pat (c :: r) then (c :: r).drop pat.length
    else c :: replaceFirst pat r

/-- Model of Python `s.rsplit(pat, 1)[0]`: everything before the last
occurrence of `pat` (identity if absent). -/
def rsplitBefore (pat cs : List Char) : List Char :=
  match cutFirst pat.reverse cs.reverse with
  | some d => d.reverse
  | none => cs

/-! ### The JSON value tree and the decoder modelling `json.loads` -/

/-- Decoded JSON documents. Object fields and string/number payloads keep
their source order and spelling, mirroring Python's decoded values. -/
inductive Json where
  | null : Json
  | bool (b : Bool) : Json
  | num (tok : List Char) : Json
  | str (s : List Char) : Json
  | arr (elems : List Json) : Json
  | obj (fields : List (List Char × Json)) : Json

/-- First characters that may start a JSON number. -/
def isNumStart (c : Char) : Bool := c.isDigit || c = '-'

/-- Characters that may occur inside a JSON number token. -/
def isNumChar (c : Char) : Bool :=
  c.isDigit || c = '-' || c = '+' || c = '.' || c = 'e' || c = 'E'

/-- Parse the body of a JSON string after the opening quote, keeping
escaped characters; returns the content and the input after the closing
quote. -/
def parseStrAux (acc : List Char) : List Char → Option (List Char × List Char)
  | [] => none
  | c :: rest =>
    if c = '"' then some (acc.reverse, rest)
    else if c = '\\' then
      match rest with
      | [] => none
      | c2 :: rest2 => parseStrAux (c2 :: acc) rest2
    else parseStrAux (c :: acc) rest

/-- Parse a JSON number token greedily. -/
def parseNum (cs : List Char) : Option (Json × List Char) :=
  let tok := cs.takeWhile isNumChar
  if tok.isEmpty then none else some (Json.num tok, cs.dropWhile isNumChar)

mutual

/-- Fueled recursive-descent parser for one JSON value; returns the value
and the unconsumed input. Part of the executable model of `json.loads`. -/
def parseVal : Nat → List Char → Option (Json × List Char)
  | 0, _ => none
  | Nat.succ fuel, cs =>
    match trimWs cs with
    | '"' :: r =>
      match parseStrAux [] r with
      | some (s, r') => some (Json.str s, r')
      | none => none
    | '\x7b' :: r =>
      match trimWs r with
      | '\x7d' :: r2 => some (Json.obj [], r2)
      | _ => parseMembers fuel r []
    | '[' :: r =>
      match trimWs r with
      | ']' :: r2 => some (Json.arr [], r2)
      | _ => parseElems fuel r []
    | 't' :: 'r' :: 'u' :: 'e' :: r => some (Json.bool true, r)
    | 'f' :: 'a' :: 'l' :: 's' :: 'e' :: r => some (Json.bool false, r)
    | 'n' :: 'u' :: 'l' :: 'l' :: r => some (Json.null, r)
    | c :: r => if isNumStart c then parseNum (c :: r) else none
    | [] => none

/-- Parse the members of a JSON object after `\x7b` (at least one member). -/
def parseMembers : Nat → List Char → List (List Char × Json) →
    Option (Json × List Char)
  | 0, _, _ => none
  | Nat.succ fuel, cs, acc =>
    match trimWs cs with
    | '"' :: r =>
      match parseStrAux [] r with
      | some (k, r1) =>
        match trimWs r1 with
        | ':' :: r2 =>
          match parseVal fuel r2 with
          | some (v, r3) =>
            match trimWs r3 with
            | ',' :: r4 => parseMembers fuel r4 ((k, v) :: acc)
            | '\x7d' :: r4 => some (Json.obj ((k, v) :: acc).reverse, r4)
            | _ => none
          | none => none
        | _ => none
      | none => none
    | _ => none

/-- Parse the elements of a JSON array after `[` (at least one element). -/
def parseElems : Nat → List Char → List Json → Option (Json × List Char)
  | 0, _, _ => none
  | Nat.succ fuel, cs, acc =>
    match parseVal fuel cs with
    | some (v, r) =>
      match trimWs r with
      | ',' :: r2 => parseElems fuel r2 (v :: acc)
      | ']' :: r2 => some (Json.arr (v :: acc).reverse, r2)
      | _ => none
    | none => none

end

/-- Model of Python's `json.loads`: trim, parse one value, and require
only whitespace afterwards. -/
def jsonDecode (cs : List Char) : Option Json :=
  let t := stripL cs
  match parseVal (t.length + 2) t with
  | some (v, rest) => if (trimWs rest).isEmpty then some v else none
  | none => none

/-! ### Records (Python dicts) and field access -/

/-- Python strings used as dict keys. -/
abbrev Key := List Char

/-- A call record: a Python dict of decoded-JSON fields, in insertion
order, exactly as loaded from the input file. -/
abbrev Record := List (Key × Json)

/-- The `llm_analysis` field written by the pipeline. -/
def aKey : Key := "llm_analysis".toList

/-- The `transcript` field read by the pipeline. -/
def tKey : Key := "transcript".toList

/-- The `error` key of error-shaped result documents. -/
def errKey : Key := "error".toList

/-- The `raw` key of parse-failure result documents. -/
def rawKey : Key := "raw".toList

/-- The fixed diagnostic stored on JSON parse failure (line 105). -/
def invalidMsg : Key := "Invalid JSON response".toList

/-- Look up a field of a record (model of `dict.__getitem__` presence). -/
def getField : Record → Key → Option Json
  | [], _ => none
  | (k, v) :: r, key => if k = key then some v else getField r key

/-- Model of Python `dict.get(key)`: `None` (here `Json.null`) when the
key is absent, which coincides with a stored JSON `null`. -/
def pyGet (r : Record) (k : Key) : Json :=
  (getField r k).getD Json.null

/-- Model of Python `dict[key] = v`: overwrite in place if present,
append at the end otherwise. -/
def setField : Record → Key → Json → Record
  | [], key, v => [(key, v)]
  | (k, w) :: r, key, v =>
    if k = key then (key, v) :: r else (k, w) :: setField r key v

/-- A JSON number token denotes zero when all mantissa digits are `0`
(models Python truthiness of decoded numbers). -/
def numIsZero (tok : List Char) : Bool :=
  (tok.takeWhile (fun c => !(c = 'e' || c = 'E'))).all
    (fun c => !c.isDigit || c = '0')

/-- Python truthiness of a decoded JSON value. -/
def pyTruthy : Json → Bool
  | Json.null => false
  | Json.bool b => b
  | Json.num tok => !numIsZero tok
  | Json.str s => !s.isEmpty
  | Json.arr xs => !xs.isEmpty
  | Json.obj kvs => !kvs.isEmpty

/-- Model of `isinstance(v, dict)` on a decoded JSON value. -/
def isDictJ : Json → Bool
  | Json.obj _ => true
  | _ => false

/-- Model of `key in v` for a decoded JSON dict (`false` otherwise). -/
def hasKeyJ (j : Json) (k : Key) : Bool :=
  match j with
  | Json.obj kvs => kvs.any (fun kv => decide (kv.1 = k))
  | _ => false

/-! ### The per-record task body: `analyze_single_transcript` -/

/-- The markdown-fence opener with language tag stripped at line 92. -/
def fenceJson : List Char := "```json".toList

/-- The bare markdown fence stripped at lines 94-95. -/
def fence3 : List Char := "```".toList

/-- Lines 89-96: strip whitespace from the model response, remove a
leading markdown fence with its `json` language tag and a trailing
fence if present, and re-trim. -/
def cleanFences (t : List Char) : List Char :=
  let a0 := stripL t
  let a1 := if startsWithL fenceJson a0 then replaceFirst fenceJson a0 else a0
  let a2 := if endsWithL fence3 a1 then rsplitBefore fence3 a1 else a1
  stripL a2

/-- Lines 89-105: the value stored into `llm_analysis` for a successful
client call with raw response text `raw` — the decoded document, or the
parse-failure document carrying the fixed diagnostic and the first 500
characters of the text that failed to decode. -/
def parseLlm (raw : List Char) : Json :=
  let aj := cleanFences raw
  match jsonDecode aj with
  | some v => v
  | none =>
    Json.obj [(errKey, Json.str invalidMsg), (rawKey, Json.str (aj.take 500))]

/-- Lines 53-57: the skip test `not transcript or not transcript.strip()`
on `call_data.get('transcript')`. The spec's data model makes the
transcript optional text, so the cases modelled are an absent field,
`null`, and a string; other falsy values also skip, as in the source. -/
def skipCond (r : Record) : Bool :=
  match pyGet r tKey with
  | Json.null => true
  | Json.str s => (stripL s).isEmpty
  | j => !pyTruthy j

/-- The transcript field is absent, `null`, or a string — the domain the
spec's data model gives it ("transcript: optional text"). -/
def transcriptWF (r : Record) : Bool :=
  match getField r tKey with
  | none => true
  | some Json.null => true
  | some (Json.str _) => true
  | _ => false

/-- Every record's transcript field is in the modelled domain. -/
def recsWF (recs : List Record) : Bool := recs.all transcriptWF

/-- The outcome of the annotation-client call for one record: the raw
response text, or the message of the exception the call raised. -/
abbrev CallOutcome := Except (List Char) (List Char)

/-- One simulated client behaviour per task index. -/
abbrev Oracle := Nat → CallOutcome

/-- Lines 52-111, the body of `analyze_single_transcript` once a
semaphore slot is held: returns the updated record and whether the
annotation client was invoked. Skip short-circuits before the call;
a raised client call is caught and stored as an error document without
a `raw` key; otherwise the response text goes through `parseLlm`. -/
def analyzeSingle (r : Record) (o : CallOutcome) : Record × Bool :=
  if skipCond r then (setField r aKey Json.null, false)
  else
    match o with
    | Except.ok raw => (setField r aKey (parseLlm raw), true)
    | Except.error e => (setField r aKey (Json.obj [(errKey, Json.str e)]), true)

/-! ### Result tallies of `main` (lines 201-209) -/

/-- Line 201: the success test, with Python's `and`/`or` precedence —
`(truthy a and not isdict a) or (isdict a and 'error' not in a)`. -/
def isSuccessC (a : Json) : Bool :=
  (pyTruthy a && !isDictJ a) || (isDictJ a && !hasKeyJ a errKey)

/-- Line 202: `c.get('llm_analysis') is None`. -/
def isSkippedC : Json → Bool
  | Json.null => true
  | _ => false

/-- Line 203: `isinstance(a, dict) and 'error' in a`. -/
def isErrorC (a : Json) : Bool :=
  isDictJ a && hasKeyJ a errKey

/-- Number of records line 201 counts as successes. -/
def countSuccess (rs : List Record) : Nat :=
  rs.countP (fun r => isSuccessC (pyGet r aKey))

/-- Number of records line 202 counts as skipped. -/
def countSkipped (rs : List Record) : Nat :=
  rs.countP (fun r => isSkippedC (pyGet r aKey))

/-- Number of records line 203 counts as errors. -/
def countError (rs : List Record) : Nat :=
  rs.countP (fun r => isErrorC (pyGet r aKey))

/-! ### The bounded-concurrency scheduler of `analyze_all_calls` -/

/-- Where one per-record task stands: not yet holding a semaphore slot,
holding a slot and running its body, or finished with its updated record
and the flag saying whether the client was invoked. -/
inductive Phase where
  | pend : Phase
  | act : Phase
  | fin (r : Record) (called : Bool) : Phase

/-- Scheduler state: free semaphore slots plus one phase per task.
`analyze_all_calls` (line 134) creates one task per input record. -/
structure SState where
  avail : Nat
  tasks : List Phase

/-- A scheduler event: task `i` acquires a slot and starts, or the
running task `i` finishes and releases its slot. The interleaving of
these events is the (simulated) completion order. -/
inductive Act where
  | start (i : Nat) : Act
  | finish (i : Nat) : Act

/-- The finished outcome of task `i`: its record updated by the task
body under the simulated client behaviour. -/
def taskResult (recs : List Record) (orc : Oracle) (i : Nat) : Record × Bool :=
  analyzeSingle (recs.getD i []) (orc i)

/-- One scheduler step; events that are not enabled leave the state
unchanged. Starting requires a pending task and a free slot (the
semaphore of line 131); finishing runs the task body and frees the
slot. Every record's task — including one that will skip — goes through
the slot-holding phase, as in the source, where the skip test sits
inside `async with semaphore`. -/
def applyAct (recs : List Record) (orc : Oracle) (s : SState) : Act → SState
  | Act.start i =>
    match s.tasks.get? i with
    | some Phase.pend =>
      if s.avail = 0 then s
      else SState.mk (s.avail - 1) (s.tasks.set i Phase.act)
    | _ => s
  | Act.finish i =>
    match s.tasks.get? i with
    | some Phase.act =>
      SState.mk (s.avail + 1)
        (s.tasks.set i (Phase.fin (taskResult recs orc i).1 (taskResult recs orc i).2))
    | _ => s

/-- Run a whole simulated completion order from a state. -/
def runSched (recs : List Record) (orc : Oracle) (s : SState) :
    List Act → SState
  | [] => s
  | a :: rest => runSched recs orc (applyAct recs orc s a) rest

/-- The initial state: `K` free slots (`asyncio.Semaphore(concurrency)`)
and one pending task per record. -/
def initSched (recs : List Record) (K : Nat) : SState :=
  SState.mk K (recs.map fun _ => Phase.pend)

/-- Is this task finished? -/
def isFin : Phase → Bool
  | Phase.fin _ _ => true
  | _ => false

/-- Is this task holding a semaphore slot? -/
def isAct : Phase → Bool
  | Phase.act => true
  | _ => false

/-- The batch is complete: `asyncio.gather` has every task's result. -/
def allDone (s : SState) : Bool := s.tasks.all isFin

/-- The record a finished task returned (dummy for unfinished tasks). -/
def resultOf : Phase → Record
  | Phase.fin r _ => r
  | _ => []

/-- The ordered result list `asyncio.gather` returns on completion. -/
def resultsOf (s : SState) : List Record := s.tasks.map resultOf

/-- Number of tasks currently holding a semaphore slot. -/
def actCount (s : SState) : Nat := s.tasks.countP isAct

/-- Number of annotation-client calls in flight: tasks holding a slot
whose record is not skipped (skipped tasks hold a slot but never call
the client). -/
def inFlight (recs : List Record) (s : SState) : Nat :=
  (s.tasks.zip recs).countP (fun pr => isAct pr.1 && !skipCond pr.2)

/-- Termination measure: pending tasks count twice, running ones once;
every enabled scheduler event strictly decreases it. -/
def schedMeasure (s : SState) : Nat :=
  2 * s.tasks.countP (fun p => !isFin p && !isAct p) + actCount s

/-! ### `analyze_all_calls` and the tail of `main` -/

/-- The ordered outcome sequence `asyncio.gather(*tasks)` produces
(lines 134-141): the task body applied to each record, in input order. -/
def gatherAll (recs : List Record) (orc : Oracle) : List Record :=
  (List.range recs.length).map fun i => (taskResult recs orc i).1

/-- Lines 121-141 of `analyze_all_calls`: if the `google.genai` import
fails, print a diagnostic and return the records untouched, dispatching
nothing; otherwise obtain the API key and run all tasks. The `credsOk`
flag models `get_api_key` (in `utils.py`, whose source is not in this
repository snapshot; modelled from the spec's configuration-failure
clause as raising when credentials are missing, which propagates out of
`asyncio.run` and aborts the process). Result: `none` for an abort by
exception, otherwise the returned record list and whether any task was
dispatched. -/
def analyzeAllCalls (importOk credsOk : Bool) (recs : List Record)
    (orc : Oracle) : Option (List Record × Bool) :=
  if importOk = false then some (recs, false)
  else if credsOk = false then none
  else some (gatherAll recs orc, true)

/-- How a run of `main` ends, for the part after the input file loads. -/
inductive MainResult where
  | aborted : MainResult
  | earlyExit : MainResult
  | completed (written : List Record) (succ skip err : Nat) : MainResult

/-- Lines 180-210 of `main`: a missing prompt file returns early before
any analysis and writes nothing; otherwise the analysis result —
whatever it is — is written to the output file and tallied. -/
def mainRun (promptOk importOk credsOk : Bool) (recs : List Record)
    (orc : Oracle) : MainResult :=
  if promptOk = false then MainResult.earlyExit
  else
    match analyzeAllCalls importOk credsOk recs orc with
    | none => MainResult.aborted
    | some (res, _) =>
      MainResult.completed res (countSuccess res) (countSkipped res) (countError res)

/-- Between `cs` and the leftover `rest`, the parser consumed a nonempty
chunk whose final character is neither a backtick nor whitespace. -/
def consumedTo (cs rest : List Char) : Prop :=
  ∃ pre c, cs = pre ++ c :: rest ∧ ¬ c = '\x60' ∧ isWsC c = false

/-- The scheduler invariant: one task per record, the semaphore
accounting `avail + holders = K`, and every finished task carries
exactly the outcome of its own record's task body. -/
def SInv (recs : List Record) (orc : Oracle) (K : Nat) (s : SState) : Prop :=
  s.tasks.length = recs.length ∧
  s.avail + s.tasks.countP isAct = K ∧
  ∀ i r b, s.tasks[i]? = some (Phase.fin r b) → (r, b) = taskResult recs orc i

/-- A raw model output wrapped in a fenced code block with the `json`
language tag, exactly as the cleanup of lines 92-95 expects it. -/
def wrapJsonFence (s : List Char) : List Char :=
  fenceJson ++ '\n' :: (s ++ '\n' :: fence3)

/-! ### Field-access lemmas -/

theorem getField_setField_self (r : Record) (k : Key) (v : Json) :
    getField (setField r k v) k = some v := by
  induction r with
  | nil => simp [setField, getField]
  | cons kv rest ih =>
    obtain ⟨k0, v0⟩ := kv
    by_cases h : k0 = k
    · simp [setField, h, getField]
    · simp [setField, h, getField, ih]

theorem getField_setField_ne (r : Record) (k k' : Key) (v : Json)
    (h : k' ≠ k) : getField (setField r k v) k' = getField r k' := by
  have hkk : ¬(k = k') := fun hh => h hh.symm
  induction r with
  | nil => simp [setField, getField, hkk]
  | cons kv rest ih =>
    obtain ⟨k0, v0⟩ := kv
    by_cases h0 : k0 = k
    · subst h0
      simp [setField, getField, hkk]
    · by_cases h1 : k0 = k'
      · simp [setField, h0, getField, h1, h]
      · simp [setField, h0, getField, h1, ih]

theorem pyGet_setField_self (r : Record) (k : Key) (v : Json) :
    pyGet (setField r k v) k = v := by
  simp [pyGet, getField_setField_self]

/-- The branches of `parseLlm` on a decodable response. -/
theorem parseLlm_of_decode (raw : List Char) (v : Json)
    (h : jsonDecode (cleanFences raw) = some v) : parseLlm raw = v := by
  simp [parseLlm, h]

/-- The branches of `parseLlm` on an undecodable response. -/
theorem parseLlm_of_fail (raw : List Char)
    (h : jsonDecode (cleanFences raw) = none) :
    parseLlm raw =
      Json.obj [(errKey, Json.str invalidMsg),
                (rawKey, Json.str ((cleanFences raw).take 500))] := by
  simp [parseLlm, h]

/-- C8: for every record and every outcome of its task, the task body
returns the record with exactly the `llm_analysis` field written; every
other field, including arbitrary passthrough fields, is unchanged. -/
theorem writes_exactly_llm_field (r : Record) (o : CallOutcome)
    (_hwf : transcriptWF r = true) :
    (∃ v, (analyzeSingle r o).1 = setField r aKey v) ∧
    ∀ k, k ≠ aKey → getField ((analyzeSingle r o).1) k = getField r k := by
  have hset : ∃ v, (analyzeSingle r o).1 = setField r aKey v := by
    unfold analyzeSingle
    by_cases hs : skipCond r
    · exact ⟨Json.null, by simp [hs]⟩
    · cases o with
      | ok raw => exact ⟨parseLlm raw, by simp [hs]⟩
      | error e => exact ⟨Json.obj [(errKey, Json.str e)], by simp [hs]⟩
  refine ⟨hset, fun k hk => ?_⟩
  obtain ⟨v, hv⟩ := hset
  rw [hv, getField_setField_ne _ _ _ _ hk]

theorem writes_exactly_llm_field_witness :
    transcriptWF [(tKey, Json.str "hi".toList), ("foo".toList, Json.num "7".toList)] = true ∧
    getField ((analyzeSingle [(tKey, Json.str "hi".toList), ("foo".toList, Json.num "7".toList)]
        (Except.ok "1".toList)).1) "foo".toList = some (Json.num "7".toList) := by
  refine ⟨by decide, ?_⟩
  rw [(writes_exactly_llm_field [(tKey, Json.str "hi".toList), ("foo".toList, Json.num "7".toList)]
        (Except.ok "1".toList) (by decide)).2 "foo".toList (by decide)]
  rfl

/-- C7, counterexample: the parse-failure error document does not carry
the decoder's diagnostic. Two different undecodable responses — an
unterminated array and a non-JSON word, which the decoder rejects for
different reasons at different positions — are stored with identical
`error` fields, both the fixed constant of line 105; the decoder's own
message is bound as `e` at line 103 and only printed at line 104. A
document whose diagnostic field never varies with the failure cannot be
carrying the decoder's diagnostic. -/
theorem parse_error_fixed_diag_cex :
    jsonDecode (cleanFences "[1,".toList) = none ∧
    jsonDecode (cleanFences "abc".toList) = none ∧
    (analyzeSingle [(tKey, Json.str "hi".toList)] (Except.ok "[1,".toList)).1 =
      setField [(tKey, Json.str "hi".toList)] aKey
        (Json.obj [(errKey, Json.str invalidMsg),
          (rawKey, Json.str "[1,".toList)]) ∧
    (analyzeSingle [(tKey, Json.str "hi".toList)] (Except.ok "abc".toList)).1 =
      setField [(tKey, Json.str "hi".toList)] aKey
        (Json.obj [(errKey, Json.str invalidMsg),
          (rawKey, Json.str "abc".toList)]) ∧
    invalidMsg = "Invalid JSON response".toList := by
  exact ⟨rfl, rfl, rfl, rfl, rfl⟩

/-- C7, amended: a successful call whose output fails to decode yields
the error document whose `error` field is the fixed diagnostic
`Invalid JSON response` — the decoder's own message is only printed to
the log, never stored — together with a bounded excerpt: at most the
first 500 characters of the text handed to the decoder, never the full
text when it is longer; a failed call yields the error document with
the failure message and without any `raw` key. -/
theorem error_payloads_bounded (r : Record) (raw e : List Char)
    (hns : skipCond r = false)
    (hfail : jsonDecode (cleanFences raw) = none) :
    (analyzeSingle r (Except.ok raw)).1 =
      setField r aKey (Json.obj [(errKey, Json.str invalidMsg),
        (rawKey, Json.str ((cleanFences raw).take 500))]) ∧
    ((cleanFences raw).take 500).length ≤ 500 ∧
    (500 < (cleanFences raw).length →
      (cleanFences raw).take 500 ≠ cleanFences raw) ∧
    (analyzeSingle r (Except.error e)).1 =
      setField r aKey (Json.obj [(errKey, Json.str e)]) ∧
    hasKeyJ (Json.obj [(errKey, Json.str e)]) rawKey = false := by
  refine ⟨?_, ?_, ?_, ?_, ?_⟩
  · simp [analyzeSingle, hns, parseLlm_of_fail _ hfail]
  · simp [List.length_take]
  · intro hlong heq
    have := congrArg List.length heq
    simp [List.length_take] at this
    omega
  · simp [analyzeSingle, hns]
  · simp [hasKeyJ, errKey, rawKey]

set_option maxRecDepth 4000 in
theorem error_payloads_bounded_witness :
    skipCond [(tKey, Json.str "hi".toList)] = false ∧
    jsonDecode (cleanFences (List.replicate 501 'x')) = none ∧
    (analyzeSingle [(tKey, Json.str "hi".toList)]
        (Except.ok (List.replicate 501 'x'))).1 =
      setField [(tKey, Json.str "hi".toList)] aKey
        (Json.obj [(errKey, Json.str invalidMsg),
          (rawKey, Json.str ((cleanFences (List.replicate 501 'x')).take 500))]) := by
  refine ⟨by decide, by rfl, ?_⟩
  exact (error_payloads_bounded [(tKey, Json.str "hi".toList)]
    (List.replicate 501 'x') "e".toList (by decide) (by rfl)).1

/-- C10: when the client succeeds and its output decodes to JSON `null`,
the record's `llm_analysis` is set to the very `null` marker a skipped
record gets, the summary classifies it as skipped and not as a success,
yet the client was invoked. -/
theorem null_decode_skip_marker (r : Record) (raw : List Char)
    (hns : skipCond r = false)
    (hnull : jsonDecode (cleanFences raw) = some Json.null) :
    (analyzeSingle r (Except.ok raw)).1 = setField r aKey Json.null ∧
    (∀ r' o', skipCond r' = true →
      (analyzeSingle r' o').1 = setField r' aKey Json.null) ∧
    isSkippedC (pyGet ((analyzeSingle r (Except.ok raw)).1) aKey) = true ∧
    isSuccessC (pyGet ((analyzeSingle r (Except.ok raw)).1) aKey) = false ∧
    (analyzeSingle r (Except.ok raw)).2 = true := by
  have hres : (analyzeSingle r (Except.ok raw)).1 = setField r aKey Json.null := by
    simp [analyzeSingle, hns, parseLlm_of_decode _ _ hnull]
  refine ⟨hres, ?_, ?_, ?_, ?_⟩
  · intro r' o' hsk
    simp [analyzeSingle, hsk]
  · rw [hres, pyGet_setField_self]
    rfl
  · rw [hres, pyGet_setField_self]
    rfl
  · simp [analyzeSingle, hns]

theorem null_decode_skip_marker_witness :
    skipCond [(tKey, Json.str "hi".toList)] = false ∧
    jsonDecode (cleanFences "null".toList) = some Json.null ∧
    (analyzeSingle [(tKey, Json.str "hi".toList)]
        (Except.ok "null".toList)).1 =
      setField [(tKey, Json.str "hi".toList)] aKey Json.null := by
  refine ⟨by decide, by rfl, ?_⟩
  exact (null_decode_skip_marker [(tKey, Json.str "hi".toList)]
    "null".toList (by decide) (by rfl)).1

/-- C3, counterexample: the claim says a whitespace-only-transcript
record is not a concurrency-pool task and consumes no slot; with K = 1
and that single record, no slot could then ever be taken — yet after the
event `start 0` the semaphore is exhausted: the skipped record's task
holds the only slot, because the skip test sits inside
`async with semaphore` and one task is created per record (line 134). -/
theorem skip_consumes_slot_cex :
    skipCond [(tKey, Json.str "  ".toList)] = true ∧
    ¬ (∀ acts : List Act,
        (runSched [[(tKey, Json.str "  ".toList)]] (fun _ => Except.ok [])
          (initSched [[(tKey, Json.str "  ".toList)]] 1) acts).avail = 1) := by
  refine ⟨by decide, fun h => ?_⟩
  have h0 := h [Act.start 0]
  exact absurd h0 (by decide)

/-- C3, amended: a record with an absent or whitespace-only transcript
gets exactly the `Skipped` outcome (`llm_analysis = null`) and the
annotation client is never invoked for it; however the record is still
dispatched as a concurrency-pool task — one task exists per record —
and its task acquires a semaphore slot before the skip test runs. -/
theorem skip_outcome_amended (r : Record) (o : CallOutcome)
    (hskip : skipCond r = true) :
    (analyzeSingle r o).1 = setField r aKey Json.null ∧
    (analyzeSingle r o).2 = false ∧
    (∀ recs K, (initSched recs K).tasks.length = recs.length) ∧
    (∀ recs orc (s : SState) i, s.tasks.get? i = some Phase.pend →
      s.avail ≠ 0 →
      applyAct recs orc s (Act.start i) =
        SState.mk (s.avail - 1) (s.tasks.set i Phase.act)) := by
  refine ⟨by simp [analyzeSingle, hskip], by simp [analyzeSingle, hskip], ?_, ?_⟩
  · intro recs K
    simp [initSched]
  · intro recs orc s i h1 h2
    have h1' : s.tasks[i]? = some Phase.pend := by simpa using h1
    simp [applyAct, h1', h2]

theorem skip_outcome_amended_witness :
    skipCond [(tKey, Json.str "  ".toList)] = true ∧
    (analyzeSingle [(tKey, Json.str "  ".toList)] (Except.ok "1".toList)).2 = false := by
  refine ⟨by decide, ?_⟩
  exact (skip_outcome_amended [(tKey, Json.str "  ".toList)]
    (Except.ok "1".toList) (by decide)).2.1

/-- C2, violated by the code: running the pipeline on one record whose
transcript decodes the model output `[]` (an empty JSON array, a falsy
non-dict document) stores `llm_analysis = []`, and line 201's
success test `a and not isinstance(a, dict) or (isinstance(a, dict)
and 'error' not in a)` together with the skipped (`is None`) and error
tests count it in no bucket: success + skipped + error = 0 while one
record was processed, so the claimed identity fails. -/
theorem summary_counts_violation :
    analyzeAllCalls true true
        [[("id".toList, Json.str "a".toList), (tKey, Json.str "hi".toList)]]
        (fun _ => Except.ok "[]".toList) =
      some ([[("id".toList, Json.str "a".toList), (tKey, Json.str "hi".toList),
              (aKey, Json.arr [])]], true) ∧
    countSuccess [[("id".toList, Json.str "a".toList), (tKey, Json.str "hi".toList),
        (aKey, Json.arr [])]] +
      countSkipped [[("id".toList, Json.str "a".toList), (tKey, Json.str "hi".toList),
        (aKey, Json.arr [])]] +
      countError [[("id".toList, Json.str "a".toList), (tKey, Json.str "hi".toList),
        (aKey, Json.arr [])]] = 0 ∧
    [[("id".toList, Json.str "a".toList), (tKey, Json.str "hi".toList),
        (aKey, Json.arr [])]].length = 1 := by
  exact ⟨rfl, rfl, rfl⟩

/-- C6, counterexample: with the client library unavailable (`importOk =
false`) and one perfectly analysable record, the run does not abort: it
completes, writes the record out unannotated, and tallies it as
skipped. The claim's "no records are written out" and "the whole run
aborts" fail. -/
theorem import_failure_writes_output_cex :
    mainRun true false true [[(tKey, Json.str "hello".toList)]]
        (fun _ => Except.ok "1".toList) =
      MainResult.completed [[(tKey, Json.str "hello".toList)]] 0 1 0 ∧
    MainResult.completed [[(tKey, Json.str "hello".toList)]] 0 1 0 ≠
      MainResult.aborted := by
  exact ⟨rfl, fun h => MainResult.noConfusion h⟩

/-- C6, amended: if the client library cannot be imported, no task is
dispatched and no record gains an outcome, but the run does not abort —
it writes the untouched records to the output and tallies them (each
unannotated record counting as skipped); a missing prompt file exits
before analysis with nothing written; missing credentials (per the
spec's account of `get_api_key`) abort the run by exception before any
dispatch. -/
theorem import_failure_amended (recs : List Record) (orc : Oracle) :
    analyzeAllCalls false true recs orc = some (recs, false) ∧
    analyzeAllCalls false false recs orc = some (recs, false) ∧
    mainRun true false true recs orc =
      MainResult.completed recs (countSuccess recs) (countSkipped recs)
        (countError recs) ∧
    mainRun true true false recs orc = MainResult.aborted ∧
    mainRun false true true recs orc = MainResult.earlyExit := by
  exact ⟨rfl, rfl, rfl, rfl, rfl⟩

/-! ### Scheduler invariants -/

/-- Effect of `List.set` on a `countP` tally. -/
theorem countP_set_eq (l : List α) (i : Nat) (a b : α) (p : α → Bool)
    (h : l[i]? = some a) :
    (l.set i b).countP p + (if p a then 1 else 0) =
      l.countP p + (if p b then 1 else 0) := by
  induction l generalizing i with
  | nil => simp at h
  | cons x xs ih =>
    cases i with
    | zero =>
      rw [List.getElem?_cons_zero] at h
      cases h
      simp [List.set, List.countP_cons]
      omega
    | succ n =>
      rw [List.getElem?_cons_succ] at h
      have hx := ih n h
      simp [List.set, List.countP_cons]
      omega

theorem SInv_init (recs : List Record) (orc : Oracle) (K : Nat) :
    SInv recs orc K (initSched recs K) := by
  refine ⟨by simp [initSched], ?_, ?_⟩
  · have h0 : List.countP isAct (recs.map fun _ => Phase.pend) = 0 := by
      rw [List.countP_map]
      exact List.countP_eq_zero.mpr (fun a _ => by simp [Function.comp, isAct])
    show K + List.countP isAct (recs.map fun _ => Phase.pend) = K
    omega
  · intro i r b h
    rw [show (initSched recs K).tasks = recs.map fun _ => Phase.pend from rfl,
      List.getElem?_map] at h
    cases hh : recs[i]? with
    | none => rw [hh] at h; simp at h
    | some x => rw [hh] at h; simp at h

theorem SInv_step (recs : List Record) (orc : Oracle) (K : Nat)
    (s : SState) (a : Act) (h : SInv recs orc K s) :
    SInv recs orc K (applyAct recs orc s a) := by
  obtain ⟨hlen, hcnt, hfin⟩ := h
  cases a with
  | start i =>
    simp only [applyAct]
    cases hi : s.tasks.get? i with
    | none => exact ⟨hlen, hcnt, hfin⟩
    | some p =>
      cases p with
      | pend =>
        by_cases hv : s.avail = 0
        · simp only [hv, if_true]
          exact ⟨hlen, hcnt, hfin⟩
        · simp only [hv, if_false]
          have hi' : s.tasks[i]? = some Phase.pend := by simpa using hi
          have hc := countP_set_eq s.tasks i Phase.pend Phase.act isAct hi'
          rw [show isAct Phase.pend = false from rfl,
            show isAct Phase.act = true from rfl] at hc
          simp at hc
          have hv' : 1 ≤ s.avail := Nat.one_le_iff_ne_zero.mpr hv
          refine ⟨by simpa using hlen, by simp only []; omega, ?_⟩
          intro j r b hj
          by_cases hij : i = j
          · subst hij
            have hilt : i < s.tasks.length := by
              by_contra hbig
              rw [List.getElem?_eq_none (Nat.le_of_not_lt hbig)] at hi'
              cases hi'
            rw [List.getElem?_set_self hilt] at hj
            simp at hj
          · rw [List.getElem?_set_ne hij] at hj
            exact hfin j r b hj
      | act => exact ⟨hlen, hcnt, hfin⟩
      | fin r b => exact ⟨hlen, hcnt, hfin⟩
  | finish i =>
    simp only [applyAct]
    cases hi : s.tasks.get? i with
    | none => exact ⟨hlen, hcnt, hfin⟩
    | some p =>
      cases p with
      | pend => exact ⟨hlen, hcnt, hfin⟩
      | fin r b => exact ⟨hlen, hcnt, hfin⟩
      | act =>
        have hi' : s.tasks[i]? = some Phase.act := by simpa using hi
        have hc := countP_set_eq s.tasks i Phase.act
          (Phase.fin (taskResult recs orc i).1 (taskResult recs orc i).2) isAct hi'
        rw [show isAct Phase.act = true from rfl,
          show isAct (Phase.fin (taskResult recs orc i).1
            (taskResult recs orc i).2) = false from rfl] at hc
        simp at hc
        refine ⟨by simpa using hlen, by simp only []; omega, ?_⟩
        intro j r b hj
        by_cases hij : i = j
        · subst hij
          have hilt : i < s.tasks.length := by
            by_contra hbig
            rw [List.getElem?_eq_none (Nat.le_of_not_lt hbig)] at hi'
            cases hi'
          rw [List.getElem?_set_self hilt] at hj
          simp at hj
          rw [← hj.1, ← hj.2]
        · rw [List.getElem?_set_ne hij] at hj
          exact hfin j r b hj

theorem SInv_run (recs : List Record) (orc : Oracle) (K : Nat)
    (s : SState) (acts : List Act) (h : SInv recs orc K s) :
    SInv recs orc K (runSched recs orc s acts) := by
  induction acts generalizing s with
  | nil => exact h
  | cons a rest ih => exact ih _ (SInv_step recs orc K s a h)

/-- On a completed batch the gathered results are exactly the per-record
outcomes, in input order. -/
theorem results_of_allDone (recs : List Record) (orc : Oracle) (K : Nat)
    (s : SState) (h : SInv recs orc K s) (hd : allDone s = true) :
    (resultsOf s).length = recs.length ∧
    ∀ i, i < recs.length →
      (resultsOf s)[i]? = some (taskResult recs orc i).1 := by
  obtain ⟨hlen, _, hfin⟩ := h
  constructor
  · simp [resultsOf, hlen]
  · intro i hi
    have hi' : i < s.tasks.length := by omega
    have hsome : s.tasks[i]? = some s.tasks[i] := by
      simp [List.getElem?_eq_getElem hi']
    have hmem : s.tasks[i] ∈ s.tasks := List.getElem?_mem hsome
    have hisfin : isFin s.tasks[i] = true :=
      List.all_eq_true.mp hd _ hmem
    cases hp : s.tasks[i] with
    | pend => rw [hp] at hisfin; cases hisfin
    | act => rw [hp] at hisfin; cases hisfin
    | fin r b =>
      rw [hp] at hsome
      have hrb := hfin i r b hsome
      simp [resultsOf, List.getElem?_map, hsome, resultOf, ← hrb]

/-- C1: for every input sequence, concurrency limit, and simulated
completion order that finishes the batch, the gathered output has one
outcome per record and the outcome at index `i` is the task body's
outcome for the input record at index `i`. -/
theorem analyzeAllCalls_preserves_order (recs : List Record) (orc : Oracle)
    (K : Nat) (acts : List Act) (_hK : 1 ≤ K) (_hwf : recsWF recs = true)
    (hdone : allDone (runSched recs orc (initSched recs K) acts) = true) :
    (resultsOf (runSched recs orc (initSched recs K) acts)).length =
      recs.length ∧
    ∀ i, i < recs.length →
      (resultsOf (runSched recs orc (initSched recs K) acts))[i]? =
        some (analyzeSingle (recs.getD i []) (orc i)).1 :=
  results_of_allDone recs orc K _
    (SInv_run recs orc K _ acts (SInv_init recs orc K)) hdone

theorem analyzeAllCalls_preserves_order_witness :
    allDone (runSched
      [[(tKey, Json.str "hello".toList)], [(tKey, Json.str "  ".toList)]]
      (fun _ => Except.ok "1".toList)
      (initSched [[(tKey, Json.str "hello".toList)],
        [(tKey, Json.str "  ".toList)]] 1)
      [Act.start 0, Act.finish 0, Act.start 1, Act.finish 1]) = true ∧
    (resultsOf (runSched
      [[(tKey, Json.str "hello".toList)], [(tKey, Json.str "  ".toList)]]
      (fun _ => Except.ok "1".toList)
      (initSched [[(tKey, Json.str "hello".toList)],
        [(tKey, Json.str "  ".toList)]] 1)
      [Act.start 0, Act.finish 0, Act.start 1, Act.finish 1]))[1]? =
      some (analyzeSingle [(tKey, Json.str "  ".toList)]
        (Except.ok "1".toList)).1 := by
  refine ⟨by rfl, ?_⟩
  exact (analyzeAllCalls_preserves_order
    [[(tKey, Json.str "hello".toList)], [(tKey, Json.str "  ".toList)]]
    (fun _ => Except.ok "1".toList) 1
    [Act.start 0, Act.finish 0, Act.start 1, Act.finish 1]
    (by decide) (by decide) (by rfl)).2 1 (by decide)

/-- Under the invariant the in-flight client calls never exceed the
semaphore size. -/
theorem inFlight_le_of_inv (recs : List Record) (orc : Oracle) (K : Nat)
    (s : SState) (h : SInv recs orc K s) : inFlight recs s ≤ K := by
  obtain ⟨hlen, hcnt, _⟩ := h
  have h1 : inFlight recs s ≤
      (s.tasks.zip recs).countP (fun pr => isAct pr.1) := by
    refine List.countP_mono_left (fun x _ hx => ?_)
    exact (Bool.and_elim_left hx)
  have h2 : (s.tasks.zip recs).countP (fun pr => isAct pr.1) =
      s.tasks.countP isAct := by
    have hm : ((s.tasks.zip recs).map Prod.fst).countP isAct =
        (s.tasks.zip recs).countP (fun pr => isAct pr.1) :=
      List.countP_map isAct Prod.fst (s.tasks.zip recs)
    rw [← hm, List.map_fst_zip s.tasks recs (by omega)]
  omega

/-- Whenever the batch is not yet complete, some scheduler event is
enabled (the system never deadlocks): either a slot is free and a
pending task can start, or some running task can finish. -/
theorem sched_progress (recs : List Record) (orc : Oracle) (K : Nat)
    (s : SState) (h : SInv recs orc K s) (hK : 1 ≤ K)
    (hnd : allDone s = false) :
    ∃ a, applyAct recs orc s a ≠ s := by
  obtain ⟨hlen, hcnt, _⟩ := h
  obtain ⟨p, hpmem, hpnf⟩ : ∃ p ∈ s.tasks, ¬ isFin p = true := by
    by_contra hc
    push_neg at hc
    have : allDone s = true := List.all_eq_true.mpr hc
    rw [this] at hnd
    cases hnd
  obtain ⟨i, hi⟩ := List.mem_iff_getElem?.mp hpmem
  have hilt : i < s.tasks.length := by
    by_contra hbig
    rw [List.getElem?_eq_none (Nat.le_of_not_lt hbig)] at hi
    cases hi
  have hfinish : ∀ j, s.tasks[j]? = some Phase.act →
      applyAct recs orc s (Act.finish j) ≠ s := by
    intro j hj heq
    have := congrArg SState.avail heq
    rw [show applyAct recs orc s (Act.finish j) = SState.mk (s.avail + 1)
        (s.tasks.set j (Phase.fin (taskResult recs orc j).1
          (taskResult recs orc j).2)) from by
      simp only [applyAct, List.get?_eq_getElem?]
      rw [hj]] at this
    simp at this
  cases p with
  | fin r b => exact absurd rfl hpnf
  | act => exact ⟨Act.finish i, hfinish i hi⟩
  | pend =>
    by_cases hv : s.avail = 0
    · have hpos : 0 < s.tasks.countP isAct := by omega
      obtain ⟨q, hqmem, hq⟩ := List.countP_pos_iff.mp hpos
      obtain ⟨j, hj⟩ := List.mem_iff_getElem?.mp hqmem
      cases q with
      | act => exact ⟨Act.finish j, hfinish j hj⟩
      | pend => cases hq
      | fin r b => cases hq
    · refine ⟨Act.start i, fun heq => ?_⟩
      have hstep : applyAct recs orc s (Act.start i) =
          SState.mk (s.avail - 1) (s.tasks.set i Phase.act) := by
        simp only [applyAct, List.get?_eq_getElem?]
        rw [hi]
        simp [hv]
      rw [hstep] at heq
      have := congrArg (fun st => st.tasks[i]?) heq
      simp only at this
      rw [List.getElem?_set_self hilt, hi] at this
      cases this

/-- Every state-changing scheduler event strictly decreases the
termination measure, so every maximal execution reaches `allDone`. -/
theorem sched_measure_decrease (recs : List Record) (orc : Oracle)
    (s : SState) (a : Act) (h : applyAct recs orc s a ≠ s) :
    schedMeasure (applyAct recs orc s a) < schedMeasure s := by
  cases a with
  | start i =>
    cases hi : s.tasks.get? i with
    | none =>
      exact absurd (by simp only [applyAct, List.get?_eq_getElem?] at hi ⊢; rw [hi]) h
    | some p =>
      have hi' : s.tasks[i]? = some p := by simpa using hi
      cases p with
      | act => exact absurd (by simp only [applyAct, List.get?_eq_getElem?]; rw [hi']) h
      | fin r b => exact absurd (by simp only [applyAct, List.get?_eq_getElem?]; rw [hi']) h
      | pend =>
        by_cases hv : s.avail = 0
        · exact absurd (by simp only [applyAct, List.get?_eq_getElem?]; rw [hi']; simp [hv]) h
        · have hstep : applyAct recs orc s (Act.start i) =
              SState.mk (s.avail - 1) (s.tasks.set i Phase.act) := by
            simp only [applyAct, List.get?_eq_getElem?]
            rw [hi']
            simp [hv]
          have hcA := countP_set_eq s.tasks i Phase.pend Phase.act isAct hi'
          have hcP := countP_set_eq s.tasks i Phase.pend Phase.act
            (fun p => !isFin p && !isAct p) hi'
          rw [show isAct Phase.pend = false from rfl,
            show isAct Phase.act = true from rfl] at hcA
          rw [show (fun p => !isFin p && !isAct p) Phase.pend = true from rfl,
            show (fun p => !isFin p && !isAct p) Phase.act = false from rfl] at hcP
          simp at hcA hcP
          have hpend_pos : 0 < s.tasks.countP (fun p => !isFin p && !isAct p) := by
            omega
          rw [hstep]
          simp only [schedMeasure, actCount]
          omega
  | finish i =>
    cases hi : s.tasks.get? i with
    | none =>
      exact absurd (by simp only [applyAct, List.get?_eq_getElem?] at hi ⊢; rw [hi]) h
    | some p =>
      have hi' : s.tasks[i]? = some p := by simpa using hi
      cases p with
      | pend => exact absurd (by simp only [applyAct, List.get?_eq_getElem?]; rw [hi']) h
      | fin r b => exact absurd (by simp only [applyAct, List.get?_eq_getElem?]; rw [hi']) h
      | act =>
        have hstep : applyAct recs orc s (Act.finish i) =
            SState.mk (s.avail + 1) (s.tasks.set i
              (Phase.fin (taskResult recs orc i).1 (taskResult recs orc i).2)) := by
          simp only [applyAct, List.get?_eq_getElem?]
          rw [hi']
        have hcA := countP_set_eq s.tasks i Phase.act
          (Phase.fin (taskResult recs orc i).1 (taskResult recs orc i).2) isAct hi'
        have hcP := countP_set_eq s.tasks i Phase.act
          (Phase.fin (taskResult recs orc i).1 (taskResult recs orc i).2)
          (fun p => !isFin p && !isAct p) hi'
        rw [show isAct Phase.act = true from rfl,
          show isAct (Phase.fin (taskResult recs orc i).1
            (taskResult recs orc i).2) = false from rfl] at hcA
        rw [show (fun p => !isFin p && !isAct p) Phase.act = false from rfl,
          show (fun p => !isFin p && !isAct p) (Phase.fin (taskResult recs orc i).1
            (taskResult recs orc i).2) = false from rfl] at hcP
        simp at hcA hcP
        rw [hstep]
        simp only [schedMeasure, actCount]
        omega

/-- C9: for every K >= 1 and every batch, along every simulated
completion order the number of in-flight client calls never exceeds K;
the scheduler can never get stuck before completion, every
state-changing event strictly decreases a finite measure (so every
maximal execution completes), and at completion every one of the N
tasks has produced an outcome — none is dropped. -/
theorem concurrency_cap_and_completion (recs : List Record) (orc : Oracle)
    (K : Nat) (hK : 1 ≤ K) (_hwf : recsWF recs = true) :
    (∀ acts, inFlight recs (runSched recs orc (initSched recs K) acts) ≤ K) ∧
    (∀ acts, allDone (runSched recs orc (initSched recs K) acts) = false →
      ∃ a, applyAct recs orc (runSched recs orc (initSched recs K) acts) a ≠
        runSched recs orc (initSched recs K) acts) ∧
    (∀ s a, applyAct recs orc s a ≠ s →
      schedMeasure (applyAct recs orc s a) < schedMeasure s) ∧
    (∀ acts, allDone (runSched recs orc (initSched recs K) acts) = true →
      ∀ i, i < recs.length → ∃ r b,
        (runSched recs orc (initSched recs K) acts).tasks[i]? =
          some (Phase.fin r b)) ∧
    (∀ acts,
      (runSched recs orc (initSched recs K) acts).tasks.length = recs.length) := by
  have hinv : ∀ acts, SInv recs orc K (runSched recs orc (initSched recs K) acts) :=
    fun acts => SInv_run recs orc K _ acts (SInv_init recs orc K)
  refine ⟨?_, ?_, ?_, ?_, ?_⟩
  · exact fun acts => inFlight_le_of_inv recs orc K _ (hinv acts)
  · exact fun acts hnd => sched_progress recs orc K _ (hinv acts) hK hnd
  · exact fun st a h => sched_measure_decrease recs orc st a h
  · intro acts hdone i hi
    obtain ⟨hlen, _, _⟩ := hinv acts
    have hi' : i < (runSched recs orc (initSched recs K) acts).tasks.length := by
      omega
    have hsome : (runSched recs orc (initSched recs K) acts).tasks[i]? =
        some (runSched recs orc (initSched recs K) acts).tasks[i] := by
      simp [List.getElem?_eq_getElem hi']
    have hisfin : isFin (runSched recs orc (initSched recs K) acts).tasks[i] = true :=
      List.all_eq_true.mp hdone _ (List.getElem?_mem hsome)
    cases hp : (runSched recs orc (initSched recs K) acts).tasks[i] with
    | pend => rw [hp] at hisfin; cases hisfin
    | act => rw [hp] at hisfin; cases hisfin
    | fin r b => exact ⟨r, b, by rw [hp] at hsome; exact hsome⟩
  · exact fun acts => (hinv acts).1

theorem concurrency_cap_and_completion_witness :
    inFlight [[(tKey, Json.str "hello".toList)]]
      (runSched [[(tKey, Json.str "hello".toList)]]
        (fun _ => Except.ok "1".toList)
        (initSched [[(tKey, Json.str "hello".toList)]] 1)
        [Act.start 0]) ≤ 1 := by
  exact (concurrency_cap_and_completion [[(tKey, Json.str "hello".toList)]]
    (fun _ => Except.ok "1".toList) 1 (by decide) (by decide)).1 [Act.start 0]

/-- C4: if the client call for record `j` raises while every other
record's simulated call is unchanged, then record `j`'s outcome is the
error document carrying the failure's message, every other record's
outcome is exactly what it is in the fault-free run, the batch result
on any completed schedule agrees with the fault-free outcomes away from
`j`, and the scheduler still makes progress until completion. -/
theorem single_fault_isolated (recs : List Record) (o o' : Oracle)
    (j : Nat) (e : List Char) (_hwf : recsWF recs = true)
    (hsame : ∀ i, i ≠ j → o i = o' i)
    (hfault : o' j = Except.error e)
    (hns : skipCond (recs.getD j []) = false) :
    (taskResult recs o' j).1 =
      setField (recs.getD j []) aKey (Json.obj [(errKey, Json.str e)]) ∧
    (∀ i, i ≠ j → taskResult recs o' i = taskResult recs o i) ∧
    (∀ K acts, allDone (runSched recs o' (initSched recs K) acts) = true →
      ∀ i, i < recs.length → i ≠ j →
        (resultsOf (runSched recs o' (initSched recs K) acts))[i]? =
          some (taskResult recs o i).1) ∧
    (∀ K acts, 1 ≤ K →
      allDone (runSched recs o' (initSched recs K) acts) = false →
      ∃ a, applyAct recs o' (runSched recs o' (initSched recs K) acts) a ≠
        runSched recs o' (initSched recs K) acts) := by
  have hsame' : ∀ i, i ≠ j → taskResult recs o' i = taskResult recs o i := by
    intro i hij
    simp [taskResult, ← hsame i hij]
  refine ⟨?_, hsame', ?_, ?_⟩
  · unfold taskResult analyzeSingle
    rw [hns, hfault]
    simp
  · intro K acts hdone i hi hij
    have hinv := SInv_run recs o' K _ acts (SInv_init recs o' K)
    have := (results_of_allDone recs o' K _ hinv hdone).2 i hi
    rw [this, hsame' i hij]
  · intro K acts hK hnd
    exact sched_progress recs o' K _
      (SInv_run recs o' K _ acts (SInv_init recs o' K)) hK hnd

theorem single_fault_isolated_witness :
    (taskResult
      [[(tKey, Json.str "hello".toList)], [(tKey, Json.str "world".toList)]]
      (fun i => if i = 1 then Except.error "timeout".toList
                else Except.ok "1".toList) 1).1 =
    setField [(tKey, Json.str "world".toList)] aKey
      (Json.obj [(errKey, Json.str "timeout".toList)]) := by
  have h := single_fault_isolated
    [[(tKey, Json.str "hello".toList)], [(tKey, Json.str "world".toList)]]
    (fun _ => Except.ok "1".toList)
    (fun i => if i = 1 then Except.error "timeout".toList
              else Except.ok "1".toList)
    1 "timeout".toList (by decide)
    (fun i hij => by simp [hij]) (by simp) (by decide)
  exact h.1

/-! ### Whitespace-stripping lemmas -/

theorem head?_trimWs_not (l : List Char) (c : Char)
    (h : (trimWs l).head? = some c) : isWsC c = false := by
  have hx := List.head?_dropWhile_not isWsC l
  rw [show l.dropWhile isWsC = trimWs l from rfl, h] at hx
  exact hx

theorem trimWs_eq_self_of_head (l : List Char)
    (h : ∀ c, l.head? = some c → isWsC c = false) : trimWs l = l := by
  cases l with
  | nil => rfl
  | cons c r => simp [trimWs, List.dropWhile_cons, h c rfl]

theorem trimWs_cons_of_ws (c : Char) (l : List Char) (h : isWsC c = true) :
    trimWs (c :: l) = trimWs l := by
  simp [trimWs, List.dropWhile_cons, h]

/-- The left-trimmed list is the stripped list followed by the trailing
whitespace run. -/
theorem trimWs_eq_stripL_append (l : List Char) :
    ∃ w, trimWs l = stripL l ++ w ∧ ∀ c ∈ w, isWsC c = true := by
  refine ⟨((trimWs l).reverse.takeWhile isWsC).reverse, ?_, ?_⟩
  · rw [stripL]
    conv_lhs => rw [← List.reverse_reverse (trimWs l)]
    rw [← List.reverse_append]
    congr 1
    rw [List.takeWhile_append_dropWhile]
  · intro c hc
    rw [List.mem_reverse] at hc
    exact List.mem_takeWhile_imp hc

theorem stripL_head_not_ws (l : List Char) (c : Char)
    (h : (stripL l).head? = some c) : isWsC c = false := by
  obtain ⟨w, hw, _⟩ := trimWs_eq_stripL_append l
  apply head?_trimWs_not l c
  rw [hw]
  cases hs : stripL l with
  | nil => rw [hs] at h; cases h
  | cons x xs =>
    rw [hs] at h
    simp at h
    simp [h]

theorem stripL_getLast_not_ws (l : List Char) (c : Char)
    (h : (stripL l).getLast? = some c) : isWsC c = false := by
  rw [stripL] at h
  rw [List.getLast?_reverse] at h
  exact head?_trimWs_not (trimWs l).reverse c h

theorem stripL_eq_self_of_ends (l : List Char)
    (h1 : ∀ c, l.head? = some c → isWsC c = false)
    (h2 : ∀ c, l.getLast? = some c → isWsC c = false) : stripL l = l := by
  rw [stripL, trimWs_eq_self_of_head l h1]
  rw [show l.reverse.dropWhile isWsC = trimWs l.reverse from rfl]
  rw [trimWs_eq_self_of_head l.reverse (by
    intro c hc
    rw [List.head?_reverse] at hc
    exact h2 c hc)]
  exact List.reverse_reverse l

theorem stripL_idem (l : List Char) : stripL (stripL l) = stripL l := by
  apply stripL_eq_self_of_ends
  · exact stripL_head_not_ws l
  · exact stripL_getLast_not_ws l

theorem stripL_cons_ws (c : Char) (l : List Char) (h : isWsC c = true) :
    stripL (c :: l) = stripL l := by
  rw [stripL, stripL, trimWs_cons_of_ws c l h]

theorem stripL_append_ws (c : Char) (l : List Char) (h : isWsC c = true) :
    stripL (l ++ [c]) = stripL l := by
  rw [stripL, stripL, show trimWs (l ++ [c]) = (l ++ [c]).dropWhile isWsC from rfl,
    List.dropWhile_append]
  cases he : (l.dropWhile isWsC).isEmpty with
  | true =>
    simp only [if_true]
    rw [List.isEmpty_iff] at he
    rw [show trimWs l = l.dropWhile isWsC from rfl, he]
    simp [List.dropWhile_cons, h, trimWs]
  | false =>
    simp only [Bool.false_eq_true, if_false]
    rw [show l.dropWhile isWsC = trimWs l from rfl]
    rw [List.reverse_append]
    simp only [List.reverse_cons, List.reverse_nil, List.nil_append,
      List.singleton_append]
    rw [List.dropWhile_cons]
    simp [h]

/-! ### Prefix, suffix, and fence-marker lemmas -/

theorem startsWithL_append_self (p xs : List Char) :
    startsWithL p (p ++ xs) = true := by
  induction p with
  | nil => rfl
  | cons c r ih => simp [startsWithL, ih]

theorem replaceFirst_of_startsWith (pat cs : List Char)
    (h : startsWithL pat cs = true) :
    replaceFirst pat cs = cs.drop pat.length := by
  cases cs with
  | nil =>
    cases pat with
    | nil => rfl
    | cons p ps => simp [startsWithL] at h
  | cons c r => simp [replaceFirst, h]

theorem cutFirst_append_self (p ys : List Char) :
    cutFirst p (p ++ ys) = some ys := by
  cases p with
  | nil =>
    cases ys with
    | nil => rfl
    | cons c r => simp [cutFirst, startsWithL]
  | cons q qs =>
    rw [show (q :: qs) ++ ys = q :: (qs ++ ys) from rfl]
    rw [cutFirst]
    have hsw : startsWithL (q :: qs) (q :: (qs ++ ys)) = true :=
      startsWithL_append_self (q :: qs) ys
    rw [if_pos hsw]
    have hdrop : List.drop (q :: qs).length (q :: (qs ++ ys)) = ys :=
      List.drop_left (q :: qs) ys
    rw [hdrop]

theorem rsplitBefore_append_self (p xs : List Char) :
    rsplitBefore p (xs ++ p) = xs := by
  rw [rsplitBefore]
  rw [show (xs ++ p).reverse = p.reverse ++ xs.reverse from by simp]
  rw [cutFirst_append_self]
  simp

theorem endsWithL_append_self (p xs : List Char) :
    endsWithL p (xs ++ p) = true := by
  rw [endsWithL, List.reverse_append]
  exact startsWithL_append_self p.reverse xs.reverse

theorem startsWithL_cons_head (p : Char) (ps cs : List Char) (c : Char)
    (h : startsWithL (p :: ps) (c :: cs) = true) : p = c := by
  simp [startsWithL] at h
  exact h.1

theorem startsWithL_fenceJson_head (t : List Char)
    (h : startsWithL fenceJson t = true) : t.head? = some '\x60' := by
  cases t with
  | nil => exact absurd h (by decide)
  | cons c cs =>
    have hf : fenceJson = '\x60' :: "\x60\x60json".toList := by decide
    rw [hf] at h
    have := startsWithL_cons_head '\x60' _ cs c h
    rw [List.head?_cons, ← this]

theorem endsWithL_fence3_getLast (t : List Char)
    (h : endsWithL fence3 t = true) : t.getLast? = some '\x60' := by
  rw [endsWithL, show fence3.reverse = fence3 from by decide] at h
  cases ht : t.reverse with
  | nil => rw [ht] at h; exact absurd h (by decide)
  | cons c cs =>
    rw [ht] at h
    have hf : fence3 = '\x60' :: "\x60\x60".toList := by decide
    rw [hf] at h
    have hc := startsWithL_cons_head '\x60' _ cs c h
    rw [← List.head?_reverse, ht, List.head?_cons, ← hc]

theorem startsWithL_fenceJson_false (t : List Char)
    (h : ∀ r, t ≠ '\x60' :: r) : startsWithL fenceJson t = false := by
  cases hs : startsWithL fenceJson t with
  | false => rfl
  | true =>
    exfalso
    have hh := startsWithL_fenceJson_head t hs
    cases t with
    | nil => cases hh
    | cons c cs =>
      rw [List.head?_cons] at hh
      have : c = '\x60' := by
        have := Option.some.inj hh
        exact this
      subst this
      exact h cs rfl

theorem endsWithL_fence3_false (t : List Char)
    (h : ∀ c, t.getLast? = some c → ¬ c = '\x60') : endsWithL fence3 t = false := by
  cases hs : endsWithL fence3 t with
  | false => rfl
  | true => exact absurd rfl (h _ (endsWithL_fence3_getLast t hs))

/-! ### What the JSON parser consumes -/

theorem consumedTo_trans (x y z : List Char)
    (h1 : consumedTo x y) (h2 : consumedTo y z) : consumedTo x z := by
  obtain ⟨p1, c1, e1, _, _⟩ := h1
  obtain ⟨p2, c2, e2, hb2, hw2⟩ := h2
  exact ⟨p1 ++ c1 :: p2, c2, by rw [e1, e2]; simp, hb2, hw2⟩

theorem consumedTo_of_trimWs (x y pre : List Char) (c : Char)
    (heq : trimWs x = pre ++ c :: y) (h1 : ¬ c = '\x60')
    (h2 : isWsC c = false) : consumedTo x y := by
  refine ⟨x.takeWhile isWsC ++ pre, c, ?_, h1, h2⟩
  conv_lhs => rw [← List.takeWhile_append_dropWhile isWsC x]
  rw [show x.dropWhile isWsC = trimWs x from rfl, heq, List.append_assoc]

theorem consumedTo_of_quote (r r1 pre : List Char)
    (h : r = pre ++ '"' :: r1) : consumedTo r r1 :=
  ⟨pre, '"', h, by decide, by decide⟩

theorem parseStrAux_split (n : Nat) : ∀ (cs : List Char), cs.length ≤ n →
    ∀ acc s rest, parseStrAux acc cs = some (s, rest) →
    ∃ pre, cs = pre ++ '"' :: rest := by
  induction n with
  | zero =>
    intro cs hlen acc s rest h
    have hnil : cs = [] := List.eq_nil_of_length_eq_zero (Nat.le_zero.mp hlen)
    subst hnil
    rw [parseStrAux.eq_def] at h
    simp at h
  | succ n ih =>
    intro cs hlen acc s rest h
    cases cs with
    | nil => rw [parseStrAux.eq_def] at h; simp at h
    | cons c r =>
      by_cases hc : c = '"'
      · subst hc
        rw [parseStrAux.eq_def] at h
        simp at h
        exact ⟨[], by simp [h.2]⟩
      · by_cases hb : c = '\\'
        · subst hb
          cases r with
          | nil => rw [parseStrAux.eq_def] at h; simp at h
          | cons c2 r2 =>
            rw [show parseStrAux acc ('\\' :: c2 :: r2) = parseStrAux (c2 :: acc) r2 from by
              rw [parseStrAux.eq_def]; simp] at h
            obtain ⟨pre, hpre⟩ := ih r2 (by simp at hlen; omega) (c2 :: acc) s rest h
            exact ⟨'\\' :: c2 :: pre, by rw [hpre]; rfl⟩
        · rw [show parseStrAux acc (c :: r) = parseStrAux (c :: acc) r from by
            rw [parseStrAux.eq_def]; simp [hc, hb]] at h
          obtain ⟨pre, hpre⟩ := ih r (by simp at hlen; omega) (c :: acc) s rest h
          exact ⟨c :: pre, by rw [hpre]; rfl⟩

theorem parseStrAux_consumed (acc cs s rest : List Char)
    (h : parseStrAux acc cs = some (s, rest)) :
    ∃ pre, cs = pre ++ '"' :: rest :=
  parseStrAux_split cs.length cs (Nat.le_refl _) acc s rest h

theorem isNumChar_good (c : Char) (h : isNumChar c = true) :
    ¬ c = '\x60' ∧ isWsC c = false := by
  constructor
  · intro hc
    subst hc
    exact absurd h (by decide)
  · cases hw : isWsC c with
    | false => rfl
    | true =>
      exfalso
      have hx : ((c = ' ' ∨ c = '\t') ∨ c = '\n') ∨ c = '\r' := by
        simpa [isWsC] using hw
      rcases hx with ((h1 | h1) | h1) | h1 <;> subst h1 <;> exact absurd h (by decide)

theorem parseNum_consumed (cs : List Char) (v : Json) (rest : List Char)
    (h : parseNum cs = some (v, rest)) :
    ∃ pre c, cs = pre ++ c :: rest ∧ isNumChar c = true := by
  rw [parseNum] at h
  cases he : (cs.takeWhile isNumChar).isEmpty with
  | true => rw [he] at h; simp at h
  | false =>
    rw [he] at h
    simp only [Bool.false_eq_true, if_false, Option.some.injEq, Prod.mk.injEq] at h
    have hne : cs.takeWhile isNumChar ≠ [] := by
      intro hx
      rw [hx] at he
      simp at he
    have hsplit := List.dropLast_concat_getLast hne
    obtain ⟨p0, c0, hpc⟩ : ∃ p0 c0, cs.takeWhile isNumChar = p0 ++ [c0] :=
      ⟨_, _, hsplit.symm⟩
    have hmem : c0 ∈ cs.takeWhile isNumChar := by
      rw [hpc]
      simp
    refine ⟨p0, c0, ?_, List.mem_takeWhile_imp hmem⟩
    conv_lhs => rw [← List.takeWhile_append_dropWhile isNumChar cs]
    rw [h.2, hpc, List.append_assoc]
    rfl

/-- Whatever the three mutually recursive parsers accept, the consumed
chunk is nonempty and ends in a non-backtick, non-whitespace character
(a closing quote, bracket or brace, a literal's last letter, or a
number character). -/
theorem parse_consumed : ∀ fuel : Nat,
    (∀ cs v rest, parseVal fuel cs = some (v, rest) → consumedTo cs rest) ∧
    (∀ cs acc v rest, parseMembers fuel cs acc = some (v, rest) →
      consumedTo cs rest) ∧
    (∀ cs acc v rest, parseElems fuel cs acc = some (v, rest) →
      consumedTo cs rest) := by
  intro fuel
  induction fuel with
  | zero =>
    refine ⟨?_, ?_, ?_⟩
    · intro cs v rest h
      rw [parseVal] at h
      simp at h
    · intro cs acc v rest h
      rw [parseMembers] at h
      simp at h
    · intro cs acc v rest h
      rw [parseElems] at h
      simp at h
  | succ n ih =>
    obtain ⟨ihV, ihM, ihE⟩ := ih
    refine ⟨?_, ?_, ?_⟩
    · intro cs v rest h
      rw [parseVal] at h
      split at h
      · rename_i r heq
        split at h
        · rename_i s r' heq2
          simp only [Option.some.injEq, Prod.mk.injEq] at h
          obtain ⟨pre, hpre⟩ := parseStrAux_consumed [] r s r' heq2
          refine consumedTo_of_trimWs cs rest ('"' :: pre) '"' ?_ (by decide) (by decide)
          rw [heq, hpre, h.2]
          rfl
        · simp at h
      · rename_i r heq
        have c1 : consumedTo cs r :=
          consumedTo_of_trimWs cs r [] '\x7b' (by simp [heq]) (by decide) (by decide)
        split at h
        · rename_i r2 heq2
          simp only [Option.some.injEq, Prod.mk.injEq] at h
          refine consumedTo_trans cs r rest c1 ?_
          refine consumedTo_of_trimWs r rest [] '\x7d' ?_ (by decide) (by decide)
          rw [heq2, h.2]
          rfl
        · exact consumedTo_trans cs r rest c1 (ihM r [] v rest h)
      · rename_i r heq
        have c1 : consumedTo cs r :=
          consumedTo_of_trimWs cs r [] '[' (by simp [heq]) (by decide) (by decide)
        split at h
        · rename_i r2 heq2
          simp only [Option.some.injEq, Prod.mk.injEq] at h
          refine consumedTo_trans cs r rest c1 ?_
          refine consumedTo_of_trimWs r rest [] ']' ?_ (by decide) (by decide)
          rw [heq2, h.2]
          rfl
        · exact consumedTo_trans cs r rest c1 (ihE r [] v rest h)
      · rename_i r heq
        simp only [Option.some.injEq, Prod.mk.injEq] at h
        refine consumedTo_of_trimWs cs rest ['t', 'r', 'u'] 'e' ?_ (by decide) (by decide)
        rw [heq, h.2]
        rfl
      · rename_i r heq
        simp only [Option.some.injEq, Prod.mk.injEq] at h
        refine consumedTo_of_trimWs cs rest ['f', 'a', 'l', 's'] 'e' ?_ (by decide) (by decide)
        rw [heq, h.2]
        rfl
      · rename_i r heq
        simp only [Option.some.injEq, Prod.mk.injEq] at h
        refine consumedTo_of_trimWs cs rest ['n', 'u', 'l'] 'l' ?_ (by decide) (by decide)
        rw [heq, h.2]
        rfl
      · rename_i c r _ _ _ _ _ _ heq
        split at h
        · obtain ⟨pre, cl, hpc, hnc⟩ := parseNum_consumed (c :: r) v rest h
          obtain ⟨hb, hw⟩ := isNumChar_good cl hnc
          refine consumedTo_of_trimWs cs rest pre cl ?_ hb hw
          rw [heq, hpc]
        · simp at h
      · simp at h
    · intro cs acc v rest h
      rw [parseMembers] at h
      split at h
      · rename_i r heq
        have c1 : consumedTo cs r :=
          consumedTo_of_trimWs cs r [] '"' (by simp [heq]) (by decide) (by decide)
        split at h
        · rename_i k r1 heq2
          have c2 : consumedTo r r1 := by
            obtain ⟨pre, hpre⟩ := parseStrAux_consumed [] r k r1 heq2
            exact consumedTo_of_quote r r1 pre hpre
          split at h
          · rename_i r2 heq3
            have c3 : consumedTo r1 r2 :=
              consumedTo_of_trimWs r1 r2 [] ':' (by simp [heq3]) (by decide) (by decide)
            split at h
            · rename_i v' r3 heq4
              have c4 : consumedTo r2 r3 := ihV r2 v' r3 heq4
              split at h
              · rename_i r4 heq5
                have c5 : consumedTo r3 r4 :=
                  consumedTo_of_trimWs r3 r4 [] ',' (by simp [heq5]) (by decide) (by decide)
                have c6 : consumedTo r4 rest := ihM r4 ((k, v') :: acc) v rest h
                exact consumedTo_trans _ _ _ c1 (consumedTo_trans _ _ _ c2
                  (consumedTo_trans _ _ _ c3 (consumedTo_trans _ _ _ c4
                    (consumedTo_trans _ _ _ c5 c6))))
              · rename_i r4 heq5
                simp only [Option.some.injEq, Prod.mk.injEq] at h
                have c5 : consumedTo r3 rest := by
                  refine consumedTo_of_trimWs r3 rest [] '\x7d' ?_ (by decide) (by decide)
                  rw [heq5, h.2]
                  rfl
                exact consumedTo_trans _ _ _ c1 (consumedTo_trans _ _ _ c2
                  (consumedTo_trans _ _ _ c3 (consumedTo_trans _ _ _ c4 c5)))
              · simp at h
            · simp at h
          · simp at h
        · simp at h
      · simp at h
    · intro cs acc v rest h
      rw [parseElems] at h
      split at h
      · rename_i v' r heq
        have c1 : consumedTo cs r := ihV cs v' r heq
        split at h
        · rename_i r2 heq2
          have c2 : consumedTo r r2 :=
            consumedTo_of_trimWs r r2 [] ',' (by simp [heq2]) (by decide) (by decide)
          have c3 : consumedTo r2 rest := ihE r2 (v' :: acc) v rest h
          exact consumedTo_trans _ _ _ c1 (consumedTo_trans _ _ _ c2 c3)
        · rename_i r2 heq2
          simp only [Option.some.injEq, Prod.mk.injEq] at h
          refine consumedTo_trans _ _ _ c1 ?_
          refine consumedTo_of_trimWs r rest [] ']' ?_ (by decide) (by decide)
          rw [heq2, h.2]
          rfl
        · simp at h
      · simp at h

/-- The parser refuses input whose first meaningful character is a
backtick: no JSON value starts with one. -/
theorem parseVal_not_btick (fuel : Nat) (cs : List Char) (x : Json × List Char)
    (h : parseVal fuel cs = some x) : ∀ r, trimWs cs ≠ '\x60' :: r := by
  intro r hr
  cases fuel with
  | zero => rw [parseVal] at h; simp at h
  | succ n =>
    rw [parseVal] at h
    split at h
    · rename_i r2 heq
      rw [hr] at heq
      simp at heq
    · rename_i r2 heq
      rw [hr] at heq
      simp at heq
    · rename_i r2 heq
      rw [hr] at heq
      simp at heq
    · rename_i r2 heq
      rw [hr] at heq
      simp at heq
    · rename_i r2 heq
      rw [hr] at heq
      simp at heq
    · rename_i r2 heq
      rw [hr] at heq
      simp at heq
    · rename_i c r2 _ _ _ _ _ _ heq
      rw [hr] at heq
      simp at heq
      obtain ⟨hc, _⟩ := heq
      rw [← hc, show isNumStart '\x60' = false from by decide] at h
      simp at h
    · rename_i heq
      rw [hr] at heq
      simp at heq

theorem all_ws_of_trimWs_nil (l : List Char) (h : trimWs l = []) :
    ∀ c ∈ l, isWsC c = true := by
  induction l with
  | nil => intro c hc; cases hc
  | cons x xs ih =>
    intro c hc
    rw [trimWs, List.dropWhile_cons] at h
    cases hx : isWsC x with
    | false => rw [hx] at h; simp at h
    | true =>
      rw [hx] at h
      simp at h
      rcases List.mem_cons.mp hc with h1 | h1
      · rw [h1]; exact hx
      · exact h c h1

theorem getLast?_append_cons : ∀ (pre : List Char) (c : Char) (l : List Char),
    (pre ++ c :: l).getLast? = (c :: l).getLast? := by
  intro pre
  induction pre with
  | nil => intro c l; rfl
  | cons p ps ih =>
    intro c l
    rw [List.cons_append]
    have h1 : (p :: (ps ++ c :: l)).getLast? = (ps ++ c :: l).getLast? := by
      cases ps with
      | nil => simp
      | cons q qs => simp [List.getLast?_cons_cons]
    rw [h1, ih c l]

/-- A decoded text, once stripped, neither begins with a backtick nor
ends with one: the fence tests of lines 92-94 cannot fire on it. -/
theorem decode_strip_facts (s0 : List Char) (d : Json)
    (h : jsonDecode s0 = some d) :
    (∀ r, stripL s0 ≠ '\x60' :: r) ∧
    (∀ c, (stripL s0).getLast? = some c → ¬ c = '\x60') := by
  rw [jsonDecode] at h
  split at h
  case _ v rest heq =>
    cases he : (trimWs rest).isEmpty with
    | false => rw [he] at h; simp at h
    | true =>
      rw [he] at h
      simp only [if_true] at h
      constructor
      · intro r hr
        have htr : trimWs (stripL s0) = stripL s0 :=
          trimWs_eq_self_of_head _ (fun c hc => stripL_head_not_ws s0 c hc)
        exact parseVal_not_btick _ _ _ heq r (by rw [htr, hr])
      · intro c hc hcb
        obtain ⟨pre, cl, hsplit, hclb, hclw⟩ := (parse_consumed _).1 _ _ _ heq
        have hrestnil : rest = [] := by
          cases hrest : rest with
          | nil => rfl
          | cons x xs =>
            exfalso
            have hlast : (stripL s0).getLast? = (x :: xs).getLast? := by
              rw [hsplit, hrest]
              rw [getLast?_append_cons]
              cases xs with
              | nil => simp
              | cons y ys => simp [List.getLast?_cons_cons]
            have hmem : (x :: xs).getLast (by simp) ∈ x :: xs :=
              List.getLast_mem (by simp)
            have hws : isWsC ((x :: xs).getLast (by simp)) = true := by
              apply all_ws_of_trimWs_nil rest
              · exact List.isEmpty_iff.mp he
              · rw [hrest]; exact hmem
            have hlast2 : (stripL s0).getLast? = some ((x :: xs).getLast (by simp)) := by
              rw [hlast]
              exact List.getLast?_eq_getLast (x :: xs) (by simp)
            have hnws := stripL_getLast_not_ws s0 _ hlast2
            rw [hnws] at hws
            cases hws
        rw [hrestnil] at hsplit
        have hlastc : (stripL s0).getLast? = some cl := by
          rw [hsplit, getLast?_append_cons]
          rfl
        rw [hc] at hlastc
        have : c = cl := Option.some.inj hlastc
        rw [this] at hcb
        exact hclb hcb
  case _ heq => simp at h

theorem jsonDecode_stripL (s : List Char) :
    jsonDecode (stripL s) = jsonDecode s := by
  rw [jsonDecode, jsonDecode, stripL_idem]

theorem cleanFences_of_decode (s : List Char) (d : Json)
    (h : jsonDecode s = some d) : cleanFences s = stripL s := by
  obtain ⟨hhead, hlast⟩ := decode_strip_facts s d h
  have h1 : startsWithL fenceJson (stripL s) = false :=
    startsWithL_fenceJson_false _ hhead
  have h2 : endsWithL fence3 (stripL s) = false :=
    endsWithL_fence3_false _ hlast
  rw [cleanFences]
  simp only [h1, h2, Bool.false_eq_true, if_false]
  exact stripL_idem s

theorem cleanFences_wrap (s : List Char) :
    cleanFences (wrapJsonFence s) = stripL s := by
  have hf3 : fence3 = ['\x60', '\x60', '\x60'] := by decide
  have hfj : fenceJson = ['\x60', '\x60', '\x60', 'j', 's', 'o', 'n'] := by decide
  have h0 : stripL (wrapJsonFence s) = wrapJsonFence s := by
    apply stripL_eq_self_of_ends
    · intro c hc
      rw [wrapJsonFence, hfj] at hc
      simp at hc
      rw [← hc]
      decide
    · intro c hc
      rw [wrapJsonFence, hf3] at hc
      have hsplit : fenceJson ++ '\n' :: (s ++ '\n' :: ['\x60', '\x60', '\x60']) =
          (fenceJson ++ '\n' :: (s ++ ['\n', '\x60', '\x60'])) ++ ['\x60'] := by
        simp
      rw [hsplit, List.getLast?_concat] at hc
      rw [← Option.some.inj hc]
      decide
  have h1 : startsWithL fenceJson (wrapJsonFence s) = true := by
    rw [wrapJsonFence]
    exact startsWithL_append_self fenceJson _
  have h2 : replaceFirst fenceJson (wrapJsonFence s) = '\n' :: (s ++ '\n' :: fence3) := by
    rw [replaceFirst_of_startsWith _ _ h1, wrapJsonFence]
    exact List.drop_left fenceJson _
  have h3 : endsWithL fence3 ('\n' :: (s ++ '\n' :: fence3)) = true := by
    have hx : '\n' :: (s ++ '\n' :: fence3) = ('\n' :: (s ++ ['\n'])) ++ fence3 := by
      simp
    rw [hx]
    exact endsWithL_append_self fence3 _
  have h4 : rsplitBefore fence3 ('\n' :: (s ++ '\n' :: fence3)) = '\n' :: (s ++ ['\n']) := by
    have hx : '\n' :: (s ++ '\n' :: fence3) = ('\n' :: (s ++ ['\n'])) ++ fence3 := by
      simp
    rw [hx]
    exact rsplitBefore_append_self fence3 _
  rw [cleanFences]
  simp only [h0, h1, if_true, h2, h3, h4]
  rw [stripL_cons_ws '\n' _ (by decide), stripL_append_ws '\n' s (by decide)]

theorem parseLlm_unwrapped (s : List Char) (d : Json)
    (h : jsonDecode s = some d) : parseLlm s = d := by
  rw [parseLlm, cleanFences_of_decode s d h, jsonDecode_stripL, h]

/-- C5: any raw model output that decodes to a structured document
parses to the same structured result whether or not it is wrapped in a
fenced code block with its language tag: the opening fence and tag and
the closing fence are stripped before decoding. -/
theorem fence_stripping_idem (s : List Char) (d : Json)
    (h : jsonDecode s = some d) :
    parseLlm (wrapJsonFence s) = parseLlm s ∧ parseLlm s = d := by
  have h2 : parseLlm s = d := parseLlm_unwrapped s d h
  have h3 : parseLlm (wrapJsonFence s) = d := by
    rw [parseLlm, cleanFences_wrap, jsonDecode_stripL, h]
  exact ⟨h3.trans h2.symm, h2⟩

theorem fence_stripping_idem_witness :
    jsonDecode "[1, 2]".toList =
      some (Json.arr [Json.num ['1'], Json.num ['2']]) ∧
    parseLlm (wrapJsonFence "[1, 2]".toList) = parseLlm "[1, 2]".toList := by
  refine ⟨by rfl, ?_⟩
  exact (fence_stripping_idem "[1, 2]".toList
    (Json.arr [Json.num ['1'], Json.num ['2']]) (by rfl)).1
